import Mathlib

/-!
Shallow embedding of the offline-first sync and conflict-management core of
the securePasswordManager repository.

Client side (`src/services/sync.service.ts`):
  * `calculateDelta` — builds a `SyncDelta` from the local entries and a base
    version.  The source calls `crypto.randomUUID()` for `eventId`; that fresh
    random value is modelled as the explicit argument `uuid`.
  * `resolveConflicts` — last-writer-wins merge of a server delta into the
    local entry list.  The source stamps conflict records with
    `new Date().toISOString()`; that wall-clock reading is modelled as the
    explicit argument `now`.

Server side (`src/server/src/routes/vault.ts`, POST /sync handler):
  * `syncVault` — the version-gated reconciliation endpoint.  `Date` values
    are modelled as `Nat` timestamps, entry payloads as `String`s.

Timestamps (`updatedAt`, `resolvedAt`, `lastSyncedAt`) are `Nat`; the source
compares `updatedAt` via `new Date(a) > new Date(b)`, embedded as `<` on `Nat`.
An absent (`undefined`) `conflictHistory` is `none`; a present (possibly
empty) array is `some _`, matching JavaScript truthiness of arrays.
-/

/-- One record of `conflictHistory`: the losing payload, when it was
archived, and which side won. -/
structure ConflictRecord where
  password : String
  resolvedAt : Nat
  resolution : String
deriving Repr, DecidableEq

/-- A vault entry (`VaultEntry` in `vault.types.ts`), restricted to the
fields the sync core reads or writes: `id`, `password` (the payload),
`version`, `updatedAt`, the tombstone flag and the bounded conflict
history.  `conflictHistory` is `Option`al because the source treats an
`undefined` field differently from a present array. -/
structure VaultEntry where
  id : Nat
  password : String
  version : Nat
  updatedAt : Nat
  isDeleted : Bool
  conflictHistory : Option (List ConflictRecord)
deriving Repr, DecidableEq

/-- A change set (`SyncDelta` in `vault.types.ts`): the transactional unit
of synchronization sent to the server. -/
structure SyncDelta where
  eventId : String
  added : List VaultEntry
  updated : List VaultEntry
  deleted : List Nat
  baseVersion : Nat
deriving Repr, DecidableEq

/-- The server's per-user vault record (`Vault` model): version counter,
entry list and last-sync timestamp. -/
structure VaultState where
  vaultVersion : Nat
  encryptedEntries : List VaultEntry
  lastSyncedAt : Nat
deriving Repr, DecidableEq

/-- Outcome of the POST /sync handler: a 409 conflict response carrying
`server_base_version`, `vaultVersion` and the current entries, or a 200
success response carrying the new version, entries and timestamp. -/
inductive SyncResult where
  | conflict (server_base_version : Nat) (vaultVersion : Nat)
      (entries : List VaultEntry) : SyncResult
  | success (vaultVersion : Nat) (entries : List VaultEntry)
      (lastSyncedAt : Nat) : SyncResult
deriving Repr, DecidableEq

/-- `syncService.calculateDelta(localEntries, baseVersion)`.  The source
filters the entries whose `version > baseVersion` into `updated`, leaves
`added` and `deleted` empty, echoes `baseVersion`, and stamps a fresh
`crypto.randomUUID()` — modelled by the explicit `uuid` argument. -/
def calculateDelta (localEntries : List VaultEntry) (baseVersion : Nat)
    (uuid : String) : SyncDelta :=
  let changes := localEntries.filter (fun e => decide (baseVersion < e.version))
  { eventId := uuid
    added := []
    updated := changes
    deleted := []
    baseVersion := baseVersion }

/-- One step of the `serverDeltas.added.forEach` loop of
`resolveConflicts`: push the server entry unless its id is already
present. -/
def addStep (merged : List VaultEntry) (serverEntry : VaultEntry) :
    List VaultEntry :=
  if ∃ e ∈ merged, e.id = serverEntry.id then merged
  else merged ++ [serverEntry]

/-- The conflict record `{password, resolvedAt: now, resolution:
"server-wins"}` archiving the losing local payload. -/
def conflictRec (now : Nat) (localEntry : VaultEntry) : ConflictRecord :=
  { password := localEntry.password
    resolvedAt := now
    resolution := "server-wins" }

/-- The replacement entry built when the server wins: the server entry with
`conflictHistory` set to the new record followed by
`(localEntry.conflictHistory || []).slice(0, 4)`. -/
def serverWins (now : Nat) (serverEntry localEntry : VaultEntry) :
    VaultEntry :=
  { serverEntry with
      conflictHistory :=
        some (conflictRec now localEntry ::
          (localEntry.conflictHistory.getD []).take 4) }

/-- One step of the `serverDeltas.updated.forEach` loop of
`resolveConflicts`: find the first entry with the server entry's id
(`findIndex`); if found and the server timestamp is strictly newer,
replace it by `serverWins`, otherwise keep it; if no entry matches, push
the server entry. -/
def updStep (now : Nat) (serverEntry : VaultEntry) :
    List VaultEntry → List VaultEntry
  | [] => [serverEntry]
  | e :: rest =>
      if e.id = serverEntry.id then
        (if e.updatedAt < serverEntry.updatedAt then
            serverWins now serverEntry e
          else e) :: rest
      else e :: updStep now serverEntry rest

/-- One step of the `serverDeltas.deleted.forEach` loop of
`resolveConflicts`: physically remove every entry with the given id. -/
def delStep (merged : List VaultEntry) (i : Nat) : List VaultEntry :=
  merged.filter (fun e => decide (e.id ≠ i))

/-- The whole `serverDeltas.added.forEach` loop of `resolveConflicts`. -/
def addPhase (added : List VaultEntry) (m : List VaultEntry) :
    List VaultEntry :=
  added.foldl addStep m

/-- The whole `serverDeltas.updated.forEach` loop of `resolveConflicts`. -/
def updPhase (now : Nat) (updated : List VaultEntry)
    (m : List VaultEntry) : List VaultEntry :=
  updated.foldl (fun m s => updStep now s m) m

/-- The whole `serverDeltas.deleted.forEach` loop of `resolveConflicts`. -/
def delPhase (deleted : List Nat) (m : List VaultEntry) :
    List VaultEntry :=
  deleted.foldl delStep m

/-- `syncService.resolveConflicts(localEntries, serverDeltas)`: apply the
server delta's `added`, then `updated` (LWW by `updatedAt`), then
`deleted` to the local entries.  `now` models the `new Date()` read for
conflict records. -/
def resolveConflicts (localEntries : List VaultEntry)
    (serverDeltas : SyncDelta) (now : Nat) : List VaultEntry :=
  delPhase serverDeltas.deleted
    (updPhase now serverDeltas.updated
      (addPhase serverDeltas.added localEntries))

/-- Length of an entry's conflict history, an absent (`undefined`) history
counting as empty. -/
def histLen (e : VaultEntry) : Nat :=
  (e.conflictHistory.getD []).length

/-- The physical-deletion pass of the POST /sync handler: when `deleted`
is non-empty, filter out every entry whose id it contains. -/
def srvDelete (entries : List VaultEntry) (deleted : List Nat) :
    List VaultEntry :=
  if 0 < deleted.length then
    entries.filter (fun e => decide (e.id ∉ deleted))
  else entries

/-- One step of the `added.forEach` loop of the POST /sync handler: push
the new entry unless its id is already present. -/
def srvAdd (entries : List VaultEntry) (newEntry : VaultEntry) :
    List VaultEntry :=
  if ∃ e ∈ entries, e.id = newEntry.id then entries
  else entries ++ [newEntry]

/-- One step of the `updated.forEach` loop of the POST /sync handler:
replace the first entry with the update's id in place, keeping the prior
record's `conflictHistory` when the update carries none
(`update.conflictHistory || existing.conflictHistory`); push the update
as a new entry when its id is unknown. -/
def srvUpdStep (update : VaultEntry) :
    List VaultEntry → List VaultEntry
  | [] => [update]
  | e :: rest =>
      if e.id = update.id then
        { update with
            conflictHistory :=
              match update.conflictHistory with
              | some h => some h
              | none => e.conflictHistory } :: rest
      else e :: srvUpdStep update rest

/-- The whole `added.forEach` loop of the POST /sync handler. -/
def srvAddPhase (added : List VaultEntry) (m : List VaultEntry) :
    List VaultEntry :=
  added.foldl srvAdd m

/-- The whole `updated.forEach` loop of the POST /sync handler. -/
def srvUpdPhase (updated : List VaultEntry) (m : List VaultEntry) :
    List VaultEntry :=
  updated.foldl (fun m u => srvUpdStep u m) m

/-- The POST /sync handler of `vault.ts`, acting on an existing stored
vault: reject with a 409 Conflict when `baseVersion !== vaultVersion`
(no mutation), otherwise apply `deleted`, then `added`, then `updated`,
increment `vaultVersion` by 1, stamp `lastSyncedAt := now`, and answer
with the new state.  Returns the response together with the stored
state after the request. -/
def syncVault (vault : VaultState) (delta : SyncDelta) (now : Nat) :
    SyncResult × VaultState :=
  if delta.baseVersion ≠ vault.vaultVersion then
    (SyncResult.conflict vault.vaultVersion vault.vaultVersion
      vault.encryptedEntries, vault)
  else
    let e3 := srvUpdPhase delta.updated
      (srvAddPhase delta.added
        (srvDelete vault.encryptedEntries delta.deleted))
    let newVault : VaultState :=
      { vaultVersion := vault.vaultVersion + 1
        encryptedEntries := e3
        lastSyncedAt := now }
    (SyncResult.success newVault.vaultVersion newVault.encryptedEntries
      newVault.lastSyncedAt, newVault)

/-! Helper lemmas shared by the claim theorems. -/

theorem syncVault_reject (vault : VaultState) (delta : SyncDelta)
    (now : Nat) (h : delta.baseVersion ≠ vault.vaultVersion) :
    syncVault vault delta now =
      (SyncResult.conflict vault.vaultVersion vault.vaultVersion
        vault.encryptedEntries, vault) := by
  simp [syncVault, h]

theorem syncVault_accept (vault : VaultState) (delta : SyncDelta)
    (now : Nat) (h : delta.baseVersion = vault.vaultVersion) :
    syncVault vault delta now =
      (SyncResult.success (vault.vaultVersion + 1)
        (srvUpdPhase delta.updated
          (srvAddPhase delta.added
            (srvDelete vault.encryptedEntries delta.deleted))) now,
       { vaultVersion := vault.vaultVersion + 1
         encryptedEntries :=
           srvUpdPhase delta.updated
             (srvAddPhase delta.added
               (srvDelete vault.encryptedEntries delta.deleted))
         lastSyncedAt := now }) := by
  simp [syncVault, h]

/-- C1: the claim as stated.  A ChangeSet whose `baseVersion` differs from
the stored `vaultVersion` is purely rejected: the stored state is returned
unchanged and the response is a Conflict carrying the server's current
`vaultVersion` and full entry list. -/
theorem sync_conflict_pure_rejection (vault : VaultState)
    (delta : SyncDelta) (now : Nat)
    (h : delta.baseVersion ≠ vault.vaultVersion) :
    syncVault vault delta now =
      (SyncResult.conflict vault.vaultVersion vault.vaultVersion
        vault.encryptedEntries, vault) :=
  syncVault_reject vault delta now h

/-- Witness for C1 at a concrete stale ChangeSet. -/
theorem sync_conflict_pure_rejection_witness :
    syncVault ⟨10, [⟨1, "x", 10, 0, false, none⟩], 0⟩
        ⟨"e", [], [⟨1, "y", 6, 0, false, none⟩], [], 5⟩ 99 =
      (SyncResult.conflict 10 10 [⟨1, "x", 10, 0, false, none⟩],
       ⟨10, [⟨1, "x", 10, 0, false, none⟩], 0⟩) :=
  sync_conflict_pure_rejection _ _ 99 (by decide)

/-- C2: the claim as stated.  A ChangeSet whose `baseVersion` matches the
stored `vaultVersion` advances `vaultVersion` by exactly 1, whatever its
`added`, `updated` and `deleted` contents are. -/
theorem sync_increments_version_by_one (vault : VaultState)
    (delta : SyncDelta) (now : Nat)
    (h : delta.baseVersion = vault.vaultVersion) :
    (syncVault vault delta now).2.vaultVersion = vault.vaultVersion + 1 := by
  rw [syncVault_accept vault delta now h]

/-- Witness for C2 at a concrete matching ChangeSet touching three
entries. -/
theorem sync_increments_version_by_one_witness :
    (syncVault ⟨4, [⟨9, "z", 1, 0, false, none⟩], 0⟩
        ⟨"e", [⟨1, "a", 5, 0, false, none⟩],
          [⟨2, "b", 5, 0, false, none⟩, ⟨3, "c", 5, 0, true, none⟩],
          [9], 4⟩ 7).2.vaultVersion = 5 :=
  sync_increments_version_by_one _ _ 7 (by decide)

/-- C3: the claim as stated.  Submitting a matching ChangeSet twice in a
row succeeds the first time, advancing the vault to `vaultVersion + 1`,
and is rejected as a conflict the second time, leaving the state produced
by the first application intact. -/
theorem sync_replay_rejected (vault : VaultState) (delta : SyncDelta)
    (n1 n2 : Nat) (h : delta.baseVersion = vault.vaultVersion) :
    (syncVault vault delta n1).1 =
      SyncResult.success (vault.vaultVersion + 1)
        (syncVault vault delta n1).2.encryptedEntries n1 ∧
    (syncVault vault delta n1).2.vaultVersion = vault.vaultVersion + 1 ∧
    syncVault (syncVault vault delta n1).2 delta n2 =
      (SyncResult.conflict (vault.vaultVersion + 1)
        (vault.vaultVersion + 1)
        (syncVault vault delta n1).2.encryptedEntries,
       (syncVault vault delta n1).2) := by
  rw [syncVault_accept vault delta n1 h]
  refine ⟨rfl, rfl, ?_⟩
  rw [syncVault_reject _ delta n2 (by simp [h])]

/-- Witness for C3 at a concrete ChangeSet replayed once. -/
theorem sync_replay_rejected_witness :
    syncVault
        (syncVault ⟨1, [], 0⟩
          ⟨"e", [], [⟨1, "x", 2, 0, false, none⟩], [], 1⟩ 5).2
        ⟨"e", [], [⟨1, "x", 2, 0, false, none⟩], [], 1⟩ 6 =
      (SyncResult.conflict 2 2 [⟨1, "x", 2, 0, false, none⟩],
       ⟨2, [⟨1, "x", 2, 0, false, none⟩], 5⟩) :=
  (sync_replay_rejected ⟨1, [], 0⟩
    ⟨"e", [], [⟨1, "x", 2, 0, false, none⟩], [], 1⟩ 5 6 (by decide)).2.2

/-- C4: the claim as stated.  `calculateDelta` puts exactly the entries
with `version > baseVersion` — tombstones included — into `updated`,
leaves `added` and `deleted` empty, and echoes `baseVersion`. -/
theorem calculateDelta_shape (entries : List VaultEntry)
    (baseVersion : Nat) (uuid : String) :
    (calculateDelta entries baseVersion uuid).updated =
      entries.filter (fun e => decide (baseVersion < e.version)) ∧
    (∀ e, e ∈ (calculateDelta entries baseVersion uuid).updated ↔
      e ∈ entries ∧ baseVersion < e.version) ∧
    (calculateDelta entries baseVersion uuid).added = [] ∧
    (calculateDelta entries baseVersion uuid).deleted = [] ∧
    (calculateDelta entries baseVersion uuid).baseVersion = baseVersion := by
  refine ⟨rfl, ?_, rfl, rfl, rfl⟩
  intro e
  simp [calculateDelta, List.mem_filter]

/-- C8 counterexample: the claim "two calls with the same
(entries, baseVersion) input pair return equal ChangeSets" is false,
because each call stamps `eventId` with a fresh `crypto.randomUUID()`
value — modelled by the `uuid` argument — and ChangeSets with different
`eventId`s are unequal even on identical entry inputs. -/
theorem calculateDelta_not_eventId_deterministic :
    calculateDelta [] 0 "4b1e...a" ≠ calculateDelta [] 0 "4b1e...b" := by
  decide

/-- C8 amended: two calls of `calculateDelta` on the same
(entries, baseVersion) pair agree on every field except the freshly
generated `eventId`: `added`, `updated`, `deleted` and `baseVersion` are
deterministic functions of the input pair. -/
theorem calculateDelta_deterministic_except_eventId
    (entries : List VaultEntry) (baseVersion : Nat) (u1 u2 : String) :
    (calculateDelta entries baseVersion u1).added =
      (calculateDelta entries baseVersion u2).added ∧
    (calculateDelta entries baseVersion u1).updated =
      (calculateDelta entries baseVersion u2).updated ∧
    (calculateDelta entries baseVersion u1).deleted =
      (calculateDelta entries baseVersion u2).deleted ∧
    (calculateDelta entries baseVersion u1).baseVersion =
      (calculateDelta entries baseVersion u2).baseVersion :=
  ⟨rfl, rfl, rfl, rfl⟩

theorem updStep_found (now : Nat) (s l : VaultEntry)
    (pre post : List VaultEntry) (hpre : ∀ x ∈ pre, x.id ≠ s.id)
    (hl : l.id = s.id) :
    updStep now s (pre ++ l :: post) =
      pre ++ (if l.updatedAt < s.updatedAt then serverWins now s l
        else l) :: post := by
  induction pre with
  | nil => simp [updStep, hl]
  | cons x pre ih =>
      have hx : x.id ≠ s.id := hpre x (by simp)
      simp only [List.cons_append, updStep, if_neg hx, List.append_eq]
      rw [ih (fun y hy => hpre y (by simp [hy]))]

theorem srvUpdStep_found (u l : VaultEntry) (pre post : List VaultEntry)
    (hpre : ∀ x ∈ pre, x.id ≠ u.id) (hl : l.id = u.id) :
    srvUpdStep u (pre ++ l :: post) =
      pre ++ { u with
        conflictHistory :=
          match u.conflictHistory with
          | some h => some h
          | none => l.conflictHistory } :: post := by
  induction pre with
  | nil => simp [srvUpdStep, hl]
  | cons x pre ih =>
      have hx : x.id ≠ u.id := hpre x (by simp)
      simp only [List.cons_append, srvUpdStep, if_neg hx, List.append_eq]
      rw [ih (fun y hy => hpre y (by simp [hy]))]

theorem srvUpdStep_not_found (u : VaultEntry) (m : List VaultEntry)
    (hm : ∀ x ∈ m, x.id ≠ u.id) :
    srvUpdStep u m = m ++ [u] := by
  induction m with
  | nil => rfl
  | cons x m ih =>
      have hx : x.id ≠ u.id := hm x (by simp)
      simp only [srvUpdStep, if_neg hx, List.cons_append]
      rw [ih (fun y hy => hm y (by simp [hy]))]

/-- C5: the claim as stated.  For an entry id present both locally (first
local occurrence `l`) and in the server's updated set, `resolveConflicts`
replaces the local entry with the server entry exactly when the server's
`updatedAt` is strictly greater; the replacement is the server entry
carrying the archived losing payload `conflictRec now l` at the head of
its bounded history (the prior local history truncated to 4); otherwise
the local entry is retained completely unchanged and no record is
written. -/
theorem resolveConflicts_lww (eid : String) (b now : Nat)
    (s l : VaultEntry) (pre post : List VaultEntry)
    (hpre : ∀ x ∈ pre, x.id ≠ s.id) (hl : l.id = s.id) :
    resolveConflicts (pre ++ l :: post) ⟨eid, [], [s], [], b⟩ now =
      pre ++ (if l.updatedAt < s.updatedAt then serverWins now s l
        else l) :: post ∧
    (serverWins now s l).conflictHistory =
      some (conflictRec now l :: (l.conflictHistory.getD []).take 4) := by
  refine ⟨?_, rfl⟩
  show delPhase [] (updPhase now [s] (addPhase [] (pre ++ l :: post))) = _
  simp only [delPhase, updPhase, addPhase, List.foldl_cons, List.foldl_nil]
  exact updStep_found now s l pre post hpre hl

/-- Witness for C5: a concrete conflicting pair in both directions of the
timestamp comparison is exercised through the theorem (server newer). -/
theorem resolveConflicts_lww_witness :
    resolveConflicts [⟨7, "old", 1, 5, false, some []⟩]
        ⟨"e", [], [⟨7, "new", 2, 9, false, none⟩], [], 3⟩ 44 =
      [⟨7, "new", 2, 9, false,
        some [⟨"old", 44, "server-wins"⟩]⟩] := by
  have h := resolveConflicts_lww "e" 3 44 ⟨7, "new", 2, 9, false, none⟩
    ⟨7, "old", 1, 5, false, some []⟩ [] [] (by simp) (by decide)
  simpa [serverWins, conflictRec] using h.1

/-- C7: the claim as stated.  When the server applies the `updated`
entries of an accepted ChangeSet, an update whose id is already present
replaces that entry in place, preserving the prior record's
`conflictHistory` unless the incoming entry supplies its own; an update
whose id is unknown is appended as a new entry rather than rejected. -/
theorem sync_update_replace_or_append (vault : VaultState)
    (u : VaultEntry) (eid : String) (now : Nat) :
    (∀ pre l post, vault.encryptedEntries = pre ++ l :: post →
      (∀ x ∈ pre, x.id ≠ u.id) → l.id = u.id →
      (syncVault vault ⟨eid, [], [u], [], vault.vaultVersion⟩ now).2.encryptedEntries =
        pre ++ { u with
          conflictHistory :=
            match u.conflictHistory with
            | some h => some h
            | none => l.conflictHistory } :: post) ∧
    ((∀ x ∈ vault.encryptedEntries, x.id ≠ u.id) →
      (syncVault vault ⟨eid, [], [u], [], vault.vaultVersion⟩ now).2.encryptedEntries =
        vault.encryptedEntries ++ [u]) := by
  have hbase :
      (⟨eid, [], [u], [], vault.vaultVersion⟩ : SyncDelta).baseVersion =
        vault.vaultVersion := rfl
  rw [syncVault_accept vault _ now hbase]
  constructor
  · intro pre l post hsplit hpre hl
    show srvUpdPhase [u] (srvAddPhase [] (srvDelete vault.encryptedEntries [])) = _
    simp only [srvUpdPhase, srvAddPhase, srvDelete, List.length_nil,
      List.foldl_cons, List.foldl_nil, Nat.lt_irrefl, if_false]
    rw [hsplit]
    exact srvUpdStep_found u l pre post hpre hl
  · intro hall
    show srvUpdPhase [u] (srvAddPhase [] (srvDelete vault.encryptedEntries [])) = _
    simp only [srvUpdPhase, srvAddPhase, srvDelete, List.length_nil,
      List.foldl_cons, List.foldl_nil, Nat.lt_irrefl, if_false]
    exact srvUpdStep_not_found u vault.encryptedEntries hall

/-- Witness for C7: a concrete in-place replacement where the incoming
update carries no history, so the stored history survives. -/
theorem sync_update_replace_or_append_witness :
    (syncVault
        ⟨3, [⟨5, "stored", 1, 0, false, some [⟨"h", 1, "server-wins"⟩]⟩], 0⟩
        ⟨"e", [], [⟨5, "upd", 2, 9, false, none⟩], [], 3⟩ 8).2.encryptedEntries =
      [⟨5, "upd", 2, 9, false, some [⟨"h", 1, "server-wins"⟩]⟩] := by
  have h := (sync_update_replace_or_append
    ⟨3, [⟨5, "stored", 1, 0, false, some [⟨"h", 1, "server-wins"⟩]⟩], 0⟩
    ⟨5, "upd", 2, 9, false, none⟩ "e" 8).1
    [] ⟨5, "stored", 1, 0, false, some [⟨"h", 1, "server-wins"⟩]⟩ []
    rfl (by simp) rfl
  simpa using h

theorem srvUpdStep_exists_self (u : VaultEntry) (m : List VaultEntry) :
    ∃ e ∈ srvUpdStep u m, e.id = u.id := by
  induction m with
  | nil => exact ⟨_, by simp [srvUpdStep], rfl⟩
  | cons x m ih =>
      by_cases hx : x.id = u.id
      · refine ⟨{ u with
          conflictHistory :=
            match u.conflictHistory with
            | some h => some h
            | none => x.conflictHistory }, ?_, rfl⟩
        simp [srvUpdStep, if_pos hx]
      · obtain ⟨e, he, hid⟩ := ih
        exact ⟨e, by simp [srvUpdStep, if_neg hx, he], hid⟩

theorem srvUpdStep_exists_mono (u : VaultEntry) (m : List VaultEntry)
    (i : Nat) (h : ∃ e ∈ m, e.id = i) :
    ∃ e ∈ srvUpdStep u m, e.id = i := by
  induction m with
  | nil => simp at h
  | cons x m ih =>
      obtain ⟨e, he, hid⟩ := h
      by_cases hx : x.id = u.id
      · rcases List.mem_cons.mp he with rfl | he'
        · refine ⟨{ u with
            conflictHistory :=
              match u.conflictHistory with
              | some h => some h
              | none => e.conflictHistory }, ?_, ?_⟩
          · simp [srvUpdStep, if_pos hx]
          · simpa [hx] using hid
        · exact ⟨e, by simp [srvUpdStep, if_pos hx, he'], hid⟩
      · rcases List.mem_cons.mp he with rfl | he'
        · exact ⟨e, by simp [srvUpdStep, if_neg hx], hid⟩
        · obtain ⟨e', he'', hid'⟩ := ih ⟨e, he', hid⟩
          exact ⟨e', by simp [srvUpdStep, if_neg hx, he''], hid'⟩

theorem srvUpdPhase_exists_mono (us : List VaultEntry)
    (m : List VaultEntry) (i : Nat) (h : ∃ e ∈ m, e.id = i) :
    ∃ e ∈ srvUpdPhase us m, e.id = i := by
  induction us generalizing m with
  | nil => exact h
  | cons v us ih => exact ih (srvUpdStep v m) (srvUpdStep_exists_mono v m i h)

theorem srvUpdPhase_exists (us : List VaultEntry) (m : List VaultEntry)
    (u : VaultEntry) (hu : u ∈ us) :
    ∃ e ∈ srvUpdPhase us m, e.id = u.id := by
  induction us generalizing m with
  | nil => simp at hu
  | cons v us ih =>
      rcases List.mem_cons.mp hu with rfl | hu'
      · exact srvUpdPhase_exists_mono us (srvUpdStep u m) u.id
          (srvUpdStep_exists_self u m)
      · exact ih (srvUpdStep v m) hu'

/-- C10: the claim as stated.  The handler applies physical deletions
before updates, so an id listed both in `deleted` and in `updated` of an
accepted ChangeSet is first removed and then re-inserted by the update
pass: the id is present in the stored vault after the sync — `deleted`
never overrides `updated` within one ChangeSet. -/
theorem sync_deleted_never_overrides_updated (vault : VaultState)
    (delta : SyncDelta) (now i : Nat)
    (hb : delta.baseVersion = vault.vaultVersion)
    (hdel : i ∈ delta.deleted) (hupd : ∃ u ∈ delta.updated, u.id = i) :
    ∃ e ∈ (syncVault vault delta now).2.encryptedEntries, e.id = i := by
  rw [syncVault_accept vault delta now hb]
  obtain ⟨u, hu, rfl⟩ := hupd
  exact srvUpdPhase_exists delta.updated _ u hu

/-- Witness for C10: id 4 is both deleted and updated; it survives in the
stored state. -/
theorem sync_deleted_never_overrides_updated_witness :
    ∃ e ∈ (syncVault ⟨1, [⟨4, "old", 1, 0, false, none⟩], 0⟩
        ⟨"e", [], [⟨4, "new", 2, 0, false, none⟩], [4], 1⟩ 9).2.encryptedEntries,
      e.id = 4 :=
  sync_deleted_never_overrides_updated
    ⟨1, [⟨4, "old", 1, 0, false, none⟩], 0⟩
    ⟨"e", [], [⟨4, "new", 2, 0, false, none⟩], [4], 1⟩ 9 4
    (by decide) (by decide) ⟨⟨4, "new", 2, 0, false, none⟩, by simp, rfl⟩

theorem mem_addStep (s : VaultEntry) (m : List VaultEntry)
    (e : VaultEntry) (he : e ∈ m) : e ∈ addStep m s := by
  unfold addStep
  split
  · exact he
  · exact List.mem_append_left _ he

theorem mem_addPhase (as : List VaultEntry) (m : List VaultEntry)
    (e : VaultEntry) (he : e ∈ m) : e ∈ addPhase as m := by
  induction as generalizing m with
  | nil => exact he
  | cons s as ih => exact ih (addStep m s) (mem_addStep s m e he)

theorem mem_updStep_of_ne (now : Nat) (s : VaultEntry)
    (m : List VaultEntry) (e : VaultEntry) (he : e ∈ m)
    (hne : e.id ≠ s.id) : e ∈ updStep now s m := by
  induction m with
  | nil => simp at he
  | cons x m ih =>
      rcases List.mem_cons.mp he with rfl | he'
      · simp [updStep, if_neg hne]
      · by_cases hx : x.id = s.id
        · simp [updStep, if_pos hx, he']
        · simp [updStep, if_neg hx, ih he']

theorem mem_updPhase_of_ne (now : Nat) (us : List VaultEntry)
    (m : List VaultEntry) (e : VaultEntry) (he : e ∈ m)
    (hne : ∀ u ∈ us, u.id ≠ e.id) : e ∈ updPhase now us m := by
  induction us generalizing m with
  | nil => exact he
  | cons s us ih =>
      exact ih (updStep now s m)
        (mem_updStep_of_ne now s m e he fun h => hne s (by simp) h.symm)
        (fun u hu => hne u (by simp [hu]))

theorem delPhase_eq_filter (del : List Nat) (m : List VaultEntry) :
    delPhase del m = m.filter (fun e => decide (e.id ∉ del)) := by
  induction del generalizing m with
  | nil => simp [delPhase]
  | cons i del ih =>
      show delPhase del (delStep m i) = _
      rw [ih, delStep, List.filter_filter]
      congr 1
      funext e
      by_cases h1 : e.id = i <;> by_cases h2 : e.id ∈ del <;>
        simp [h1, h2]

/-- C9: the claim as stated.  An entry that exists only locally — its id
occurs in neither `added` nor `updated` of the server delta — survives
`resolveConflicts` completely unchanged, unless its id is listed in the
server delta's `deleted` set, in which case every entry with that id is
removed from the result. -/
theorem resolveConflicts_local_only_frame (L : List VaultEntry)
    (D : SyncDelta) (now : Nat) (e : VaultEntry) (he : e ∈ L)
    (ha : ∀ s ∈ D.added, s.id ≠ e.id)
    (hu : ∀ u ∈ D.updated, u.id ≠ e.id) :
    (e.id ∉ D.deleted → e ∈ resolveConflicts L D now) ∧
    (e.id ∈ D.deleted →
      ∀ x ∈ resolveConflicts L D now, x.id ≠ e.id) := by
  have hmem : e ∈ updPhase now D.updated (addPhase D.added L) :=
    mem_updPhase_of_ne now D.updated _ e (mem_addPhase D.added L e he) hu
  unfold resolveConflicts
  rw [delPhase_eq_filter]
  constructor
  · intro hnd
    exact List.mem_filter.mpr ⟨hmem, by simpa using hnd⟩
  · intro hd x hx
    have := (List.mem_filter.mp hx).2
    intro hxe
    rw [hxe] at this
    simp [hd] at this

/-- Witness for C9: a local-only entry survives a delta that touches other
ids (first conjunct at a concrete input). -/
theorem resolveConflicts_local_only_frame_witness :
    (⟨3, "mine", 1, 5, false, none⟩ : VaultEntry) ∈
      resolveConflicts [⟨3, "mine", 1, 5, false, none⟩]
        ⟨"e", [⟨1, "a", 1, 9, false, none⟩],
          [⟨2, "b", 1, 9, false, none⟩], [7], 0⟩ 42 :=
  (resolveConflicts_local_only_frame [⟨3, "mine", 1, 5, false, none⟩]
    ⟨"e", [⟨1, "a", 1, 9, false, none⟩],
      [⟨2, "b", 1, 9, false, none⟩], [7], 0⟩ 42
    ⟨3, "mine", 1, 5, false, none⟩ (by simp) (by decide) (by decide)).1
    (by decide)

theorem exists_id_addStep_self (s : VaultEntry) (m : List VaultEntry) :
    ∃ e ∈ addStep m s, e.id = s.id := by
  unfold addStep
  split
  · next h => exact h
  · exact ⟨s, by simp, rfl⟩

theorem exists_id_addPhase (as : List VaultEntry) (m : List VaultEntry)
    (s : VaultEntry) (hs : s ∈ as) :
    ∃ e ∈ addPhase as m, e.id = s.id := by
  induction as generalizing m with
  | nil => simp at hs
  | cons a as ih =>
      rcases List.mem_cons.mp hs with rfl | hs'
      · obtain ⟨e, he, hid⟩ := exists_id_addStep_self s m
        exact ⟨e, mem_addPhase as _ e he, hid⟩
      · exact ih (addStep m a) hs'

theorem exists_id_updStep_mono (now : Nat) (s : VaultEntry)
    (m : List VaultEntry) (i : Nat) (h : ∃ e ∈ m, e.id = i) :
    ∃ e ∈ updStep now s m, e.id = i := by
  induction m with
  | nil => simp at h
  | cons x m ih =>
      obtain ⟨e, he, hid⟩ := h
      by_cases hx : x.id = s.id
      · rcases List.mem_cons.mp he with rfl | he'
        · by_cases hts : e.updatedAt < s.updatedAt
          · exact ⟨serverWins now s e,
              by simp [updStep, if_pos hx, if_pos hts],
              by simp [serverWins]; rw [← hx, hid]⟩
          · exact ⟨e, by simp [updStep, if_pos hx, if_neg hts], hid⟩
        · exact ⟨e, by simp [updStep, if_pos hx, he'], hid⟩
      · rcases List.mem_cons.mp he with rfl | he'
        · exact ⟨e, by simp [updStep, if_neg hx], hid⟩
        · obtain ⟨e', he'', hid'⟩ := ih ⟨e, he', hid⟩
          exact ⟨e', by simp [updStep, if_neg hx, he''], hid'⟩

theorem exists_id_updPhase_mono (now : Nat) (us : List VaultEntry)
    (m : List VaultEntry) (i : Nat) (h : ∃ e ∈ m, e.id = i) :
    ∃ e ∈ updPhase now us m, e.id = i := by
  induction us generalizing m with
  | nil => exact h
  | cons s us ih =>
      exact ih (updStep now s m) (exists_id_updStep_mono now s m i h)

theorem find?_filter_of_imp (q pred : VaultEntry → Bool)
    (m : List VaultEntry) (himp : ∀ e, pred e = true → q e = true) :
    (m.filter q).find? pred = m.find? pred := by
  induction m with
  | nil => rfl
  | cons x m ih =>
      by_cases hp : pred x = true
      · rw [List.filter_cons_of_pos (himp x hp),
          List.find?_cons_of_pos _ hp, List.find?_cons_of_pos _ hp]
      · rw [List.find?_cons_of_neg _ (by simpa using hp)]
        by_cases hq : q x = true
        · rw [List.filter_cons_of_pos hq,
            List.find?_cons_of_neg _ (by simpa using hp)]
          exact ih
        · rw [List.filter_cons_of_neg (by simpa using hq)]
          exact ih

theorem updStep_find?_self (now : Nat) (s : VaultEntry)
    (m : List VaultEntry) :
    ∃ l, (updStep now s m).find? (fun e => decide (e.id = s.id)) =
        some l ∧ ¬ l.updatedAt < s.updatedAt := by
  induction m with
  | nil =>
      exact ⟨s, by simp [updStep], Nat.lt_irrefl _⟩
  | cons x m ih =>
      by_cases hx : x.id = s.id
      · by_cases hts : x.updatedAt < s.updatedAt
        · refine ⟨serverWins now s x, ?_, ?_⟩
          · rw [show updStep now s (x :: m) =
                serverWins now s x :: m by simp [updStep, hx, hts]]
            exact List.find?_cons_of_pos _ (by simp [serverWins])
          · simp [serverWins]
        · refine ⟨x, ?_, hts⟩
          rw [show updStep now s (x :: m) = x :: m by
            simp [updStep, hx, hts]]
          exact List.find?_cons_of_pos _ (by simp [hx])
      · obtain ⟨l, hfind, hts⟩ := ih
        refine ⟨l, ?_, hts⟩
        rw [show updStep now s (x :: m) = x :: updStep now s m by
          simp [updStep, hx]]
        rw [List.find?_cons_of_neg _ (by simp [hx])]
        exact hfind

theorem updStep_find?_mono (now : Nat) (s : VaultEntry)
    (m : List VaultEntry) (i t : Nat) (l : VaultEntry)
    (hfind : m.find? (fun e => decide (e.id = i)) = some l)
    (hts : ¬ l.updatedAt < t) :
    ∃ l', (updStep now s m).find? (fun e => decide (e.id = i)) =
        some l' ∧ ¬ l'.updatedAt < t := by
  induction m generalizing l with
  | nil => simp at hfind
  | cons x m ih =>
      by_cases hi : x.id = i
      · rw [List.find?_cons_of_pos _ (by simp [hi])] at hfind
        injection hfind with hfind
        subst hfind
        by_cases hx : x.id = s.id
        · by_cases hlt : x.updatedAt < s.updatedAt
          · refine ⟨serverWins now s x, ?_, ?_⟩
            · rw [show updStep now s (x :: m) =
                  serverWins now s x :: m by simp [updStep, hx, hlt]]
              exact List.find?_cons_of_pos _
                (by simp [serverWins, ← hx, hi])
            · show ¬ (serverWins now s x).updatedAt < t
              have : (serverWins now s x).updatedAt = s.updatedAt := rfl
              omega
          · refine ⟨x, ?_, hts⟩
            rw [show updStep now s (x :: m) = x :: m by
              simp [updStep, hx, hlt]]
            exact List.find?_cons_of_pos _ (by simp [hi])
        · refine ⟨x, ?_, hts⟩
          rw [show updStep now s (x :: m) = x :: updStep now s m by
            simp [updStep, hx]]
          exact List.find?_cons_of_pos _ (by simp [hi])
      · rw [List.find?_cons_of_neg _ (by simp [hi])] at hfind
        by_cases hx : x.id = s.id
        · refine ⟨l, ?_, hts⟩
          rw [show updStep now s (x :: m) =
              (if x.updatedAt < s.updatedAt then serverWins now s x
                else x) :: m by simp [updStep, hx]]
          rw [List.find?_cons_of_neg _ ?_]
          · exact hfind
          · split
            · simp [serverWins, ← hx, hi]
            · simp [hi]
        · obtain ⟨l', hfind', hts'⟩ := ih l hfind hts
          refine ⟨l', ?_, hts'⟩
          rw [show updStep now s (x :: m) = x :: updStep now s m by
            simp [updStep, hx]]
          rw [List.find?_cons_of_neg _ (by simp [hi])]
          exact hfind'

theorem updPhase_find?_mono (now : Nat) (us : List VaultEntry)
    (m : List VaultEntry) (i t : Nat) (l : VaultEntry)
    (hfind : m.find? (fun e => decide (e.id = i)) = some l)
    (hts : ¬ l.updatedAt < t) :
    ∃ l', (updPhase now us m).find? (fun e => decide (e.id = i)) =
        some l' ∧ ¬ l'.updatedAt < t := by
  induction us generalizing m l with
  | nil => exact ⟨l, hfind, hts⟩
  | cons s us ih =>
      obtain ⟨l', hfind', hts'⟩ := updStep_find?_mono now s m i t l hfind hts
      exact ih (updStep now s m) l' hfind' hts'

theorem updPhase_find?_ge (now : Nat) (us : List VaultEntry)
    (m : List VaultEntry) (u : VaultEntry) (hu : u ∈ us) :
    ∃ l, (updPhase now us m).find? (fun e => decide (e.id = u.id)) =
        some l ∧ ¬ l.updatedAt < u.updatedAt := by
  induction us generalizing m with
  | nil => simp at hu
  | cons s us ih =>
      rcases List.mem_cons.mp hu with rfl | hu'
      · obtain ⟨l, hfind, hts⟩ := updStep_find?_self now u m
        exact updPhase_find?_mono now us (updStep now u m) u.id
          u.updatedAt l hfind hts
      · exact ih (updStep now s m) hu'

theorem updStep_found_self (now : Nat) (s : VaultEntry)
    (m : List VaultEntry) (l : VaultEntry)
    (hfind : m.find? (fun e => decide (e.id = s.id)) = some l)
    (hts : ¬ l.updatedAt < s.updatedAt) :
    updStep now s m = m := by
  induction m generalizing l with
  | nil => simp at hfind
  | cons x m ih =>
      by_cases hx : x.id = s.id
      · rw [List.find?_cons_of_pos _ (by simp [hx])] at hfind
        injection hfind with hfind
        subst hfind
        simp [updStep, hx, hts]
      · rw [List.find?_cons_of_neg _ (by simp [hx])] at hfind
        simp [updStep, hx, ih l hfind hts]

theorem updStep_append_left_of_ne (now : Nat) (s : VaultEntry)
    (pre rest : List VaultEntry) (hpre : ∀ e ∈ pre, e.id ≠ s.id) :
    updStep now s (pre ++ rest) = pre ++ updStep now s rest := by
  induction pre with
  | nil => rfl
  | cons x pre ih =>
      have hx : x.id ≠ s.id := hpre x (by simp)
      simp only [List.cons_append, updStep, if_neg hx, List.append_eq]
      rw [ih (fun y hy => hpre y (by simp [hy]))]

theorem mem_updStep_cases (now : Nat) (s : VaultEntry)
    (m : List VaultEntry) (e : VaultEntry) (he : e ∈ updStep now s m) :
    e ∈ m ∨ e = s ∨ ∃ l ∈ m, e = serverWins now s l := by
  induction m with
  | nil =>
      simp [updStep] at he
      exact Or.inr (Or.inl he)
  | cons x m ih =>
      by_cases hx : x.id = s.id
      · rw [show updStep now s (x :: m) =
            (if x.updatedAt < s.updatedAt then serverWins now s x
              else x) :: m by simp [updStep, hx]] at he
        rcases List.mem_cons.mp he with rfl | he'
        · split
          · exact Or.inr (Or.inr ⟨x, by simp, rfl⟩)
          · exact Or.inl (by simp)
        · exact Or.inl (by simp [he'])
      · rw [show updStep now s (x :: m) = x :: updStep now s m by
          simp [updStep, hx]] at he
        rcases List.mem_cons.mp he with rfl | he'
        · exact Or.inl (by simp)
        · rcases ih he' with h | h | ⟨l, hl, hsw⟩
          · exact Or.inl (by simp [h])
          · exact Or.inr (Or.inl h)
          · exact Or.inr (Or.inr ⟨l, by simp [hl], hsw⟩)

theorem addPhase_split (as : List VaultEntry) (del : List Nat)
    (O : List VaultEntry) :
    ∀ T, (∀ e ∈ T, e.id ∈ del) →
      (∀ s ∈ as, s.id ∈ del ∨ ∃ e ∈ O, e.id = s.id) →
      ∃ T', addPhase as (O ++ T) = O ++ T' ∧ ∀ e ∈ T', e.id ∈ del := by
  induction as with
  | nil => exact fun T hT _ => ⟨T, rfl, hT⟩
  | cons s as ih =>
      intro T hT has
      have hstep : ∃ T₁, addStep (O ++ T) s = O ++ T₁ ∧
          ∀ e ∈ T₁, e.id ∈ del := by
        rcases has s (by simp) with hdel | ⟨e, he, hid⟩
        · unfold addStep
          split
          · exact ⟨T, rfl, hT⟩
          · refine ⟨T ++ [s], by simp, ?_⟩
            intro x hx
            rcases List.mem_append.mp hx with hx' | hx'
            · exact hT x hx'
            · rw [List.mem_singleton.mp hx']
              exact hdel
        · refine ⟨T, ?_, hT⟩
          unfold addStep
          rw [if_pos ⟨e, List.mem_append_left _ he, hid⟩]
      obtain ⟨T₁, heq, hT₁⟩ := hstep
      show ∃ T', addPhase as (addStep (O ++ T) s) = O ++ T' ∧ _
      rw [heq]
      exact ih T₁ hT₁ (fun x hx => has x (by simp [hx]))

theorem updPhase_split (now : Nat) (us : List VaultEntry)
    (del : List Nat) (O : List VaultEntry)
    (hq : ∀ e ∈ O, e.id ∉ del)
    (hus : ∀ u ∈ us, u.id ∈ del ∨
      ∃ l, O.find? (fun e => decide (e.id = u.id)) = some l ∧
        ¬ l.updatedAt < u.updatedAt) :
    ∀ T, (∀ e ∈ T, e.id ∈ del) →
      ∃ T', updPhase now us (O ++ T) = O ++ T' ∧
        ∀ e ∈ T', e.id ∈ del := by
  induction us with
  | nil => exact fun T hT => ⟨T, rfl, hT⟩
  | cons u us ih =>
      intro T hT
      have hstep : ∃ T₁, updStep now u (O ++ T) = O ++ T₁ ∧
          ∀ e ∈ T₁, e.id ∈ del := by
        rcases hus u (by simp) with hdel | ⟨l, hfind, hts⟩
        · have hOno : ∀ e ∈ O, e.id ≠ u.id :=
            fun e he heq => hq e he (heq ▸ hdel)
          refine ⟨updStep now u T, updStep_append_left_of_ne now u O T hOno, ?_⟩
          intro e he
          rcases mem_updStep_cases now u T e he with h | rfl | ⟨l, hl, rfl⟩
          · exact hT e h
          · exact hdel
          · exact hdel
        · refine ⟨T, ?_, hT⟩
          apply updStep_found_self now u (O ++ T) l _ hts
          rw [List.find?_append, hfind]
          rfl
      obtain ⟨T₁, heq, hT₁⟩ := hstep
      show ∃ T', updPhase now us (updStep now u (O ++ T)) = O ++ T' ∧ _
      rw [heq]
      exact ih (fun x hx => hus x (by simp [hx])) T₁ hT₁

theorem resolveConflicts_idem (L : List VaultEntry) (D : SyncDelta)
    (t1 t2 : Nat) :
    resolveConflicts (resolveConflicts L D t1) D t2 =
      resolveConflicts L D t1 := by
  have hq' : ∀ e ∈ resolveConflicts L D t1, e.id ∉ D.deleted := by
    intro e he
    unfold resolveConflicts at he
    rw [delPhase_eq_filter] at he
    simpa using (List.mem_filter.mp he).2
  have hadd : ∀ s ∈ D.added, s.id ∈ D.deleted ∨
      ∃ e ∈ resolveConflicts L D t1, e.id = s.id := by
    intro s hs
    by_cases hdel : s.id ∈ D.deleted
    · exact Or.inl hdel
    · right
      obtain ⟨e, he, hid⟩ := exists_id_updPhase_mono t1 D.updated _ s.id
        (exists_id_addPhase D.added L s hs)
      refine ⟨e, ?_, hid⟩
      unfold resolveConflicts
      rw [delPhase_eq_filter]
      exact List.mem_filter.mpr ⟨he, by simp [hid, hdel]⟩
  have hupd : ∀ u ∈ D.updated, u.id ∈ D.deleted ∨
      ∃ l, (resolveConflicts L D t1).find?
          (fun e => decide (e.id = u.id)) = some l ∧
        ¬ l.updatedAt < u.updatedAt := by
    intro u hu
    by_cases hdel : u.id ∈ D.deleted
    · exact Or.inl hdel
    · right
      obtain ⟨l, hfind, hts⟩ := updPhase_find?_ge t1 D.updated
        (addPhase D.added L) u hu
      refine ⟨l, ?_, hts⟩
      unfold resolveConflicts
      rw [delPhase_eq_filter]
      rw [find?_filter_of_imp _ _ _ ?_]
      · exact hfind
      · intro e hpe
        have hpe' : e.id = u.id := by simpa using hpe
        simp [hpe', hdel]
  obtain ⟨T1, heq1, hT1⟩ := addPhase_split D.added D.deleted
    (resolveConflicts L D t1) [] (by simp) hadd
  obtain ⟨T2, heq2, hT2⟩ := updPhase_split t2 D.updated D.deleted
    (resolveConflicts L D t1) hq' hupd T1 hT1
  have h1 : (resolveConflicts L D t1).filter
      (fun e => decide (e.id ∉ D.deleted)) = resolveConflicts L D t1 :=
    List.filter_eq_self.mpr (fun e he => by simpa using hq' e he)
  have h2 : T2.filter (fun e => decide (e.id ∉ D.deleted)) = [] :=
    List.filter_eq_nil_iff.mpr (fun e he => by simp [hT2 e he])
  show delPhase D.deleted (updPhase t2 D.updated
    (addPhase D.added (resolveConflicts L D t1))) = _
  rw [show addPhase D.added (resolveConflicts L D t1) =
      addPhase D.added (resolveConflicts L D t1 ++ []) by simp,
    heq1, heq2, delPhase_eq_filter, List.filter_append, h1, h2,
    List.append_nil]

theorem histLen_serverWins (now : Nat) (s l : VaultEntry) :
    histLen (serverWins now s l) ≤ 5 := by
  simp [histLen, serverWins]

theorem mem_addStep_cases (s : VaultEntry) (m : List VaultEntry)
    (e : VaultEntry) (he : e ∈ addStep m s) : e ∈ m ∨ e = s := by
  unfold addStep at he
  split at he
  · exact Or.inl he
  · rcases List.mem_append.mp he with h | h
    · exact Or.inl h
    · exact Or.inr (List.mem_singleton.mp h)

theorem addPhase_bounded (as m : List VaultEntry)
    (hm : ∀ x ∈ m, histLen x ≤ 5) (has : ∀ x ∈ as, histLen x ≤ 5) :
    ∀ e ∈ addPhase as m, histLen e ≤ 5 := by
  induction as generalizing m with
  | nil => exact hm
  | cons a as ih =>
      refine ih (addStep m a) ?_ (fun x hx => has x (by simp [hx]))
      intro x hx
      rcases mem_addStep_cases a m x hx with h | rfl
      · exact hm x h
      · exact has x (by simp)

theorem updPhase_bounded (now : Nat) (us m : List VaultEntry)
    (hm : ∀ x ∈ m, histLen x ≤ 5) (hus : ∀ x ∈ us, histLen x ≤ 5) :
    ∀ e ∈ updPhase now us m, histLen e ≤ 5 := by
  induction us generalizing m with
  | nil => exact hm
  | cons u us ih =>
      refine ih (updStep now u m) ?_ (fun x hx => hus x (by simp [hx]))
      intro x hx
      rcases mem_updStep_cases now u m x hx with h | rfl | ⟨l, _, rfl⟩
      · exact hm x h
      · exact hus x (by simp)
      · exact histLen_serverWins now u l

theorem mem_of_mem_delPhase (del : List Nat) (m : List VaultEntry)
    (e : VaultEntry) (he : e ∈ delPhase del m) : e ∈ m := by
  rw [delPhase_eq_filter] at he
  exact (List.mem_filter.mp he).1

/-- C6: the claim as stated.  With the wall-clock reading modelled as the
explicit argument of `resolveConflicts` (it is otherwise a pure function,
hence deterministic for a given input pair), re-applying the merge of the
same server delta to its own output changes nothing — for any later clock
value — and every entry of the result keeps a conflict history of at
most 5 records whenever the inputs do. -/
theorem resolveConflicts_idempotent_and_bounded (L : List VaultEntry)
    (D : SyncDelta) (t1 t2 : Nat) (e : VaultEntry) :
    resolveConflicts (resolveConflicts L D t1) D t2 =
      resolveConflicts L D t1 ∧
    ((∀ x ∈ L, histLen x ≤ 5) → (∀ x ∈ D.added, histLen x ≤ 5) →
      (∀ x ∈ D.updated, histLen x ≤ 5) →
      e ∈ resolveConflicts L D t1 → histLen e ≤ 5) := by
  refine ⟨resolveConflicts_idem L D t1 t2, ?_⟩
  intro hL hA hU he
  have he' := mem_of_mem_delPhase D.deleted _ e he
  exact updPhase_bounded t1 D.updated (addPhase D.added L)
    (addPhase_bounded D.added L hL hA) hU e he'

/-- Witness for C6 at a concrete merge with a real server-wins conflict:
the second application is a no-op at a later clock, and the merged
entry's history stays within the bound. -/
theorem resolveConflicts_idempotent_and_bounded_witness :
    resolveConflicts
        (resolveConflicts [⟨2, "lb", 1, 5, false, none⟩]
          ⟨"u", [⟨1, "sa", 2, 10, false, none⟩],
            [⟨2, "sb", 3, 20, false, none⟩], [9], 0⟩ 100)
        ⟨"u", [⟨1, "sa", 2, 10, false, none⟩],
          [⟨2, "sb", 3, 20, false, none⟩], [9], 0⟩ 200 =
      resolveConflicts [⟨2, "lb", 1, 5, false, none⟩]
        ⟨"u", [⟨1, "sa", 2, 10, false, none⟩],
          [⟨2, "sb", 3, 20, false, none⟩], [9], 0⟩ 100 ∧
    histLen ⟨2, "sb", 3, 20, false,
      some [⟨"lb", 100, "server-wins"⟩]⟩ ≤ 5 :=
  ⟨(resolveConflicts_idempotent_and_bounded
      [⟨2, "lb", 1, 5, false, none⟩]
      ⟨"u", [⟨1, "sa", 2, 10, false, none⟩],
        [⟨2, "sb", 3, 20, false, none⟩], [9], 0⟩ 100 200
      ⟨2, "sb", 3, 20, false, some [⟨"lb", 100, "server-wins"⟩]⟩).1,
   (resolveConflicts_idempotent_and_bounded
      [⟨2, "lb", 1, 5, false, none⟩]
      ⟨"u", [⟨1, "sa", 2, 10, false, none⟩],
        [⟨2, "sb", 3, 20, false, none⟩], [9], 0⟩ 100 200
      ⟨2, "sb", 3, 20, false, some [⟨"lb", 100, "server-wins"⟩]⟩).2
     (by decide) (by decide) (by decide) (by decide)⟩
